import Mathlib

/-!
Shallow embedding of `meta_description_extractor.py`, a single-pass batch
converter: read URLs from a CSV, fetch each page, extract the first matching
meta-description tag, write (URL, description) pairs to an output CSV.

Modelling conventions:
* CSV text is a `String`; the stdlib `csv` reader/writer (default dialect,
  delimiter `,`, quote `"`, line terminator CRLF, minimal quoting) is embedded
  by the executable `csvWrite` / `csvParse` functions below.
* An HTML document is represented by the stream of events the stdlib
  `HTMLParser` tokenizer produces from it: start-tag events carrying the tag
  name and attribute list, and `other` events for everything the subclass does
  not handle (data, comments, end tags, and unparseable constructs the scanner
  skips).
* The network is an oracle mapping (url, timeout, user-agent) to the outcome
  of `urlopen`: either a successfully fetched and decoded body, or one of the
  exception kinds the source handles (`HTTPError`, `URLError`, `ValueError`).
* Python's `sys.exit(message)` terminates the process with status 1 and the
  message on standard error; `main` is embedded as a function returning the
  exit code, the message, the written output file (if any) and the list of
  URLs fetched.
-/

namespace MetaDesc

/-- One event of the stdlib HTML tokenizer feeding the parser subclass:
a start tag (tag name and attribute list, an attribute value being absent for
bare attributes), or any other construct, which the subclass ignores. -/
inductive HtmlEvent where
  | starttag (tag : String) (attrs : List (String × Option String))
  | other (text : String)
  deriving DecidableEq

/-- An HTML document, as the token stream the tokenizer produces from it. -/
abbrev Html := List HtmlEvent

/-- Python `str.lower()`, embedded as a structural map over the characters
(so the kernel can evaluate it on concrete strings). -/
def lowerStr (s : String) : String := String.mk (s.data.map Char.toLower)

/-- Python `str.strip()`: drop whitespace from both ends, embedded
structurally over the character list. -/
def trimStr (s : String) : String :=
  String.mk ((s.data.dropWhile Char.isWhitespace).reverse.dropWhile Char.isWhitespace).reverse

/-- State of `MetaDescriptionParser`: the captured description, if any. -/
structure MetaDescriptionParserState where
  meta_description : Option String := none
  deriving DecidableEq

/-- `{name.lower(): (value or "") for name, value in attrs}.get(key, "")`:
the value of the last attribute whose lowercased name is `key` (later
duplicate keys override earlier ones in the dict comprehension), with `None`
collapsed to `""`, or `""` when no such attribute exists. -/
def attrsGet (attrs : List (String × Option String)) (key : String) : String :=
  match (attrs.filter fun a => lowerStr a.1 = key).getLast? with
  | some a => a.2.getD ""
  | none => ""

/-- `MetaDescriptionParser.handle_starttag`. -/
def handle_starttag (p : MetaDescriptionParserState) (tag : String)
    (attrs : List (String × Option String)) : MetaDescriptionParserState :=
  if p.meta_description ≠ none then p
  else if lowerStr tag ≠ "meta" then p
  else
    let name_value := lowerStr (attrsGet attrs "name")
    let property_value := lowerStr (attrsGet attrs "property")
    if name_value = "description" ∨ property_value = "og:description" ∨
        property_value = "twitter:description" then
      { p with meta_description := some (trimStr (attrsGet attrs "content")) }
    else p

/-- Dispatch of one tokenizer event to the parser subclass: only start tags
are handled; every other construct leaves the state unchanged. -/
def feedEvent (p : MetaDescriptionParserState) : HtmlEvent → MetaDescriptionParserState
  | .starttag t a => handle_starttag p t a
  | .other _ => p

/-- `HTMLParser.feed`: run the handler over the document's event stream. -/
def feed (p : MetaDescriptionParserState) (html : Html) : MetaDescriptionParserState :=
  html.foldl feedEvent p

/-- `extract_meta_description`: feed the document to a fresh parser and
return `parser.meta_description or ""` (Python `or`: `None` and the empty
string both yield `""`). -/
def extract_meta_description (html : Html) : String :=
  match (feed {} html).meta_description with
  | some s => if s = "" then "" else s
  | none => ""

/-- Whether a start tag matches the extractor's conditions (spec-side
characterization used in theorem statements). -/
def tagMatches (tag : String) (attrs : List (String × Option String)) : Bool :=
  lowerStr tag = "meta" ∧
    (lowerStr (attrsGet attrs "name") = "description" ∨
      lowerStr (attrsGet attrs "property") = "og:description" ∨
      lowerStr (attrsGet attrs "property") = "twitter:description")

/-- Whether an event is a matching meta start tag. -/
def eventMatches : HtmlEvent → Bool
  | .starttag t a => tagMatches t a
  | .other _ => false

/-- The trimmed content a matching event would record, if it matches. -/
def matchContent : HtmlEvent → Option String
  | .starttag t a => if tagMatches t a then some (trimStr (attrsGet a "content")) else none
  | .other _ => none

/-- Whether an event is a start-tag event (as opposed to a construct the
parser subclass ignores). -/
def isTagEvent : HtmlEvent → Bool
  | .starttag _ _ => true
  | .other _ => false

/-! ## URL reader -/

/-- One iteration of the `read_urls` loop: skip an empty row, strip the
first field, skip the case-insensitive `"url"` header token, append when
non-empty. -/
def readStep (urls : List String) (row : List String) : List String :=
  match row with
  | [] => urls
  | field :: _ =>
    let url := trimStr field
    if lowerStr url = "url" then urls
    else if url ≠ "" then urls ++ [url]
    else urls

/-- `read_urls`: the input CSV as the row list the stdlib `csv.reader`
yields, folded through the reader loop. -/
def read_urls (rows : List (List String)) : List String :=
  rows.foldl readStep []

/-- Spec-side characterization of the URL reader (section 4.1 of the spec):
the trimmed first field of every non-empty row, dropping header tokens and
empty values — the header skip applying at any row position. -/
def readUrlsSpec (rows : List (List String)) : List String :=
  rows.filterMap fun row =>
    match row with
    | [] => none
    | field :: _ =>
      let url := trimStr field
      if lowerStr url = "url" then none
      else if url = "" then none
      else some url

/-! ## CSV writer and reader (stdlib `csv`, default dialect) -/

/-- A character forcing minimal quoting: the delimiter, the quote character,
or a line-terminator character. -/
def isCsvSpecial (c : Char) : Bool :=
  c = ',' || c = '"' || c = '\r' || c = '\n'

/-- Double every quote character (CSV quote escaping). -/
def escapeQuotes : List Char → List Char
  | [] => []
  | c :: rest =>
    if c = '"' then '"' :: '"' :: escapeQuotes rest
    else c :: escapeQuotes rest

/-- Serialize one field with minimal quoting: quote it exactly when it
contains a delimiter, quote or line-terminator character. -/
def encodeField (s : String) : List Char :=
  if s.data.any isCsvSpecial then '"' :: (escapeQuotes s.data ++ ['"'])
  else s.data

/-- Serialize one row: fields joined by the delimiter. -/
def encodeRow : List String → List Char
  | [] => []
  | [f] => encodeField f
  | f :: rest => encodeField f ++ ',' :: encodeRow rest

/-- One `csv.writer.writerow` call: the serialized row plus CRLF. -/
def writerow (row : List String) : List Char :=
  encodeRow row ++ ['\r', '\n']

/-- Serialize a whole file: every row followed by CRLF. -/
def csvWrite (rows : List (List String)) : String :=
  String.mk (rows.foldr (fun r acc => writerow r ++ acc) [])

/-- A character ending an unquoted field: delimiter or line terminator. -/
def isFieldEnd (c : Char) : Bool :=
  c = ',' || c = '\r' || c = '\n'

/-- Scan a quoted field after its opening quote: doubled quotes are
undoubled; a lone quote closes the field (an unterminated field runs to end
of input, as the stdlib reader does in non-strict mode). -/
def parseQuoted (acc : List Char) : List Char → List Char × List Char
  | [] => (acc.reverse, [])
  | c :: rest =>
    if c = '"' then
      match rest with
      | [] => (acc.reverse, [])
      | c2 :: rest2 =>
        if c2 = '"' then parseQuoted ('"' :: acc) rest2
        else (acc.reverse, c2 :: rest2)
    else parseQuoted (c :: acc) rest

/-- Scan an unquoted field: runs until a delimiter, line terminator or end
of input, which is left unconsumed. -/
def parseUnquoted (acc : List Char) : List Char → List Char × List Char
  | [] => (acc.reverse, [])
  | c :: rest =>
    if isFieldEnd c then (acc.reverse, c :: rest)
    else parseUnquoted (c :: acc) rest

/-- Scan one field: quoted when it starts with the quote character,
unquoted otherwise. -/
def parseField (input : List Char) : List Char × List Char :=
  match input with
  | [] => ([], [])
  | c :: rest => if c = '"' then parseQuoted [] rest else parseUnquoted [] input

/-- Scan the fields of one record, fueled by the maximal field count; a
record ends at a line terminator (CRLF or a lone CR or LF) or end of
input. -/
def parseFields : Nat → List Char → List String × List Char
  | 0, input => ([], input)
  | fuel + 1, input =>
    let p := parseField input
    match p.2 with
    | [] => ([String.mk p.1], [])
    | c :: rest =>
      if c = ',' then
        let q := parseFields fuel rest
        (String.mk p.1 :: q.1, q.2)
      else if c = '\r' then
        match rest with
        | [] => ([String.mk p.1], [])
        | c2 :: rest2 =>
          if c2 = '\n' then ([String.mk p.1], rest2)
          else ([String.mk p.1], c2 :: rest2)
      else if c = '\n' then ([String.mk p.1], rest)
      else ([String.mk p.1], c :: rest)

/-- Scan one record: a blank line yields the empty record (as the stdlib
reader does); otherwise scan fields. -/
def parseRecord (fuel : Nat) (input : List Char) : List String × List Char :=
  match input with
  | [] => ([], [])
  | c :: rest =>
    if c = '\r' then
      match rest with
      | [] => ([], [])
      | c2 :: rest2 => if c2 = '\n' then ([], rest2) else ([], c2 :: rest2)
    else if c = '\n' then ([], rest)
    else parseFields fuel input

/-- Scan records until end of input, fueled by the maximal record count. -/
def parseRecordsAux : Nat → List Char → List (List String)
  | 0, _ => []
  | _ + 1, [] => []
  | fuel + 1, c :: rest =>
    let p := parseRecord (rest.length + 2) (c :: rest)
    p.1 :: parseRecordsAux fuel p.2

/-- `csv.reader` over a whole file. -/
def csvParse (s : String) : List (List String) :=
  parseRecordsAux (s.data.length + 1) s.data

/-! ## Result records, fetcher, orchestration -/

/-- `MetaDescriptionResult`. -/
structure MetaDescriptionResult where
  url : String
  description : String
  deriving DecidableEq

/-- `write_results`: one `writerow` for the fixed header, then one per
result record in order; the returned string is the output file content. -/
def write_results (results : List MetaDescriptionResult) : String :=
  String.mk
    (results.foldl (fun acc r => acc ++ writerow [r.url, r.description])
      (writerow ["URL", "Meta Description"]))

/-- Outcome of one `urlopen` call: a successfully fetched and decoded body
(as its token stream), or one of the exception kinds the source handles. -/
inductive FetchOutcome where
  | success (html : Html)
  | httpError
  | urlError
  | valueError
  deriving DecidableEq

/-- The network, as an oracle from (url, timeout, user-agent) to the
outcome of the single GET request `fetch_html` issues. -/
abbrev Network := String → Nat → String → FetchOutcome

/-- `fetch_html`: wrap the request in `try/except (HTTPError, URLError,
ValueError)`, returning the decoded body on success and `None` on any of
the handled failures. -/
def fetch_html (net : Network) (url : String) (timeout : Nat)
    (user_agent : String) : Option Html :=
  match net url timeout user_agent with
  | .success html => some html
  | .httpError => none
  | .urlError => none
  | .valueError => none

/-- Observable outcome of `process_urls`: the URLs fetched (in order), the
result records built, the output file written (if any), and the error
message raised (if any). -/
structure ProcOutcome where
  fetched : List String
  results : List MetaDescriptionResult
  output : Option String
  errorMsg : Option String
  deriving DecidableEq

/-- `process_urls`: read the URLs; raise when none; otherwise fetch each in
order, extract when the fetch succeeded (empty description otherwise),
and write all results once at the end. -/
def process_urls (net : Network) (rows : List (List String)) (timeout : Nat)
    (user_agent : String) : ProcOutcome :=
  let urls := read_urls rows
  if urls = [] then
    { fetched := [], results := [], output := none,
      errorMsg := some "The input CSV contains no URLs." }
  else
    let results := urls.map fun url =>
      let html := fetch_html net url timeout user_agent
      let description :=
        match html with
        | some h => extract_meta_description h
        | none => ""
      { url := url, description := description }
    { fetched := urls, results := results,
      output := some (write_results results), errorMsg := none }

/-- Observable outcome of `main`: process exit code, the message printed on
exit (if any), the output file written (if any), and the URLs fetched. -/
structure MainOutcome where
  exitCode : Nat
  message : Option String
  output : Option String
  fetched : List String
  deriving DecidableEq

/-- `main`: missing input file or a raised error exits with status 1 and
the error text (`sys.exit(str)`); otherwise status 0 with the output
written. -/
def main (inputExists : Bool) (inputPath : String) (rows : List (List String))
    (net : Network) (timeout : Nat) (user_agent : String) : MainOutcome :=
  if inputExists = false then
    { exitCode := 1,
      message := some ("Input file '" ++ inputPath ++
        "' not found. Please add it to the repository root."),
      output := none, fetched := [] }
  else
    let p := process_urls net rows timeout user_agent
    match p.errorMsg with
    | some msg => { exitCode := 1, message := some msg, output := p.output, fetched := p.fetched }
    | none => { exitCode := 0, message := none, output := p.output, fetched := p.fetched }

/-! ## Lemmas about the extractor -/

theorem handle_starttag_frozen (p : MetaDescriptionParserState) (t : String)
    (a : List (String × Option String)) (h : p.meta_description ≠ none) :
    handle_starttag p t a = p := by
  simp [handle_starttag, h]

theorem feed_frozen (html : Html) (p : MetaDescriptionParserState)
    (h : p.meta_description ≠ none) : feed p html = p := by
  induction html with
  | nil => rfl
  | cons e rest ih =>
    cases e with
    | starttag t a =>
      show feed (feedEvent p (.starttag t a)) rest = p
      rw [show feedEvent p (.starttag t a) = p from handle_starttag_frozen p t a h]
      exact ih
    | other s => exact ih

theorem handle_starttag_none_nomatch (t : String) (a : List (String × Option String))
    (hm : tagMatches t a = false) :
    handle_starttag ⟨none⟩ t a = ⟨none⟩ := by
  simp only [tagMatches, decide_eq_false_iff_not, not_and_or, not_or] at hm
  unfold handle_starttag
  simp only [ne_eq, not_true_eq_false, if_false, reduceCtorEq, not_false_eq_true, if_true,
    ite_eq_right_iff]
  split
  · rfl
  · split
    · rename_i hmeta hcond
      rcases hm with hm | hm
      · exact absurd (by simpa using hmeta) hm
      · exact absurd hcond (by tauto)
    · rfl

theorem handle_starttag_none_match (t : String) (a : List (String × Option String))
    (hm : tagMatches t a = true) :
    handle_starttag ⟨none⟩ t a = ⟨some (trimStr (attrsGet a "content"))⟩ := by
  simp only [tagMatches, decide_eq_true_eq] at hm
  unfold handle_starttag
  simp only [ne_eq, reduceCtorEq, not_false_eq_true, if_true, not_true_eq_false, if_false]
  split
  · exact absurd (by simpa using hm.1) (by assumption)
  · split
    · rfl
    · exact absurd hm.2 (by tauto)

theorem feed_none_findSome (html : Html) :
    (feed ⟨none⟩ html).meta_description = html.findSome? matchContent := by
  induction html with
  | nil => rfl
  | cons e rest ih =>
    cases e with
    | starttag t a =>
      cases hm : tagMatches t a with
      | false =>
        show (feed (feedEvent ⟨none⟩ (.starttag t a)) rest).meta_description = _
        rw [show feedEvent (⟨none⟩ : MetaDescriptionParserState) (.starttag t a) = ⟨none⟩ from
          handle_starttag_none_nomatch t a hm]
        rw [ih]
        simp [List.findSome?_cons, matchContent, hm]
      | true =>
        show (feed (feedEvent ⟨none⟩ (.starttag t a)) rest).meta_description = _
        rw [show feedEvent (⟨none⟩ : MetaDescriptionParserState) (.starttag t a) =
            ⟨some (trimStr (attrsGet a "content"))⟩ from handle_starttag_none_match t a hm]
        rw [feed_frozen rest _ (by simp)]
        simp [List.findSome?_cons, matchContent, hm]
    | other s =>
      show (feed (⟨none⟩ : MetaDescriptionParserState) rest).meta_description = _
      rw [ih]
      simp [List.findSome?_cons, matchContent]

theorem extract_getD (html : Html) :
    extract_meta_description html = ((feed ⟨none⟩ html).meta_description).getD "" := by
  unfold extract_meta_description
  cases h : (feed (⟨none⟩ : MetaDescriptionParserState) html).meta_description with
  | none => simp [h]
  | some s =>
    simp only [h, Option.getD_some]
    rcases eq_or_ne s "" with rfl | hs
    · simp
    · simp [hs]

theorem feed_nomatch (pre : List HtmlEvent)
    (hpre : ∀ e ∈ pre, eventMatches e = false) :
    feed ⟨none⟩ pre = ⟨none⟩ := by
  induction pre with
  | nil => rfl
  | cons e rest ih =>
    cases e with
    | starttag t a =>
      show feed (feedEvent ⟨none⟩ (.starttag t a)) rest = _
      rw [show feedEvent (⟨none⟩ : MetaDescriptionParserState) (.starttag t a) = ⟨none⟩ from
        handle_starttag_none_nomatch t a (by simpa [eventMatches] using hpre _ (List.mem_cons_self _ _))]
      exact ih fun x hx => hpre x (List.mem_cons_of_mem _ hx)
    | other s => exact ih fun x hx => hpre x (List.mem_cons_of_mem _ hx)

theorem extract_first_match_aux (pre post : List HtmlEvent) (t : String)
    (a : List (String × Option String))
    (hpre : ∀ e ∈ pre, eventMatches e = false) (hm : tagMatches t a = true) :
    extract_meta_description (pre ++ HtmlEvent.starttag t a :: post) =
      trimStr (attrsGet a "content") := by
  rw [extract_getD]
  unfold feed
  rw [List.foldl_append]
  show ((feed (feed ⟨none⟩ pre) (HtmlEvent.starttag t a :: post)).meta_description).getD "" = _
  rw [feed_nomatch pre hpre]
  show ((feed (feedEvent ⟨none⟩ (.starttag t a)) post).meta_description).getD "" = _
  rw [show feedEvent (⟨none⟩ : MetaDescriptionParserState) (.starttag t a) =
      ⟨some (trimStr (attrsGet a "content"))⟩ from handle_starttag_none_match t a hm]
  rw [feed_frozen post _ (by simp)]
  rfl

/-- C3: for every HTML input, `extract_meta_description` returns the trimmed
`content` attribute (empty string if absent) of the first meta tag whose
`name` case-insensitively equals `"description"` or whose `property`
case-insensitively equals `"og:description"` or `"twitter:description"`
(that is what `matchContent` records), and the empty string when no tag
matches. -/
theorem C3_extract_matches_spec (html : Html) :
    extract_meta_description html = (html.findSome? matchContent).getD "" := by
  rw [extract_getD, feed_none_findSome]

/-- C2: extraction is first-match-wins: whenever a matching meta start tag is
preceded only by non-matching events, the result is that tag's trimmed
`content` attribute, whatever events (in particular further matching tags)
follow it. -/
theorem C2_first_match_wins (pre post : List HtmlEvent) (t : String)
    (a : List (String × Option String))
    (hpre : ∀ e ∈ pre, eventMatches e = false) (hm : tagMatches t a = true) :
    extract_meta_description (pre ++ HtmlEvent.starttag t a :: post) =
      trimStr (attrsGet a "content") :=
  extract_first_match_aux pre post t a hpre hm

/-- Witness for C2, the spec's own example: a meta tag with `property`
`"og:description"` and content `"OG text"` comes before a tag with `name`
`"description"`; extraction yields `"OG text"` and the later matching tag is
ignored. -/
theorem C2_first_match_wins_witness :
    extract_meta_description
      [HtmlEvent.other "<!doctype html>",
       HtmlEvent.starttag "meta" [("property", some "og:description"), ("content", some "OG text")],
       HtmlEvent.starttag "meta" [("name", some "description"), ("content", some "Ignored later")]]
      = "OG text" :=
  (C2_first_match_wins [HtmlEvent.other "<!doctype html>"]
    [HtmlEvent.starttag "meta" [("name", some "description"), ("content", some "Ignored later")]]
    "meta" [("property", some "og:description"), ("content", some "OG text")]
    (by decide) (by decide)).trans (by decide)

/-- C10: if the first matching tag's trimmed `content` is empty (absent or
whitespace-only), the result is the empty string, and later matching tags —
even ones with non-empty content — cannot change it: the first match freezes
the recorded value. -/
theorem C10_empty_first_match_freezes (pre post : List HtmlEvent) (t : String)
    (a : List (String × Option String))
    (hpre : ∀ e ∈ pre, eventMatches e = false) (hm : tagMatches t a = true)
    (hempty : trimStr (attrsGet a "content") = "") :
    extract_meta_description (pre ++ HtmlEvent.starttag t a :: post) = "" := by
  rw [extract_first_match_aux pre post t a hpre hm, hempty]

/-- Witness for C10: a first matching tag with whitespace-only content yields
`""` even though a later matching tag carries `"Later"`. -/
theorem C10_empty_first_match_freezes_witness :
    extract_meta_description
      [HtmlEvent.starttag "meta" [("name", some "description"), ("content", some "   ")],
       HtmlEvent.starttag "meta" [("name", some "description"), ("content", some "Later")]]
      = "" :=
  C10_empty_first_match_freezes []
    [HtmlEvent.starttag "meta" [("name", some "description"), ("content", some "Later")]]
    "meta" [("name", some "description"), ("content", some "   ")]
    (by decide) (by decide) (by decide)

/-- C9: the extractor is a total function of the token stream, and every
construct the tag scanner skips (data, comments, end tags, unparseable
markup — the non-start-tag events) is irrelevant to its result: filtering
the stream down to its start-tag events does not change the extracted
string. -/
theorem C9_extract_total_ignores_skipped (html : Html) :
    extract_meta_description html = extract_meta_description (html.filter isTagEvent) := by
  unfold extract_meta_description
  suffices h : ∀ p : MetaDescriptionParserState, feed p (html.filter isTagEvent) = feed p html by
    rw [h]
  induction html with
  | nil => intro p; rfl
  | cons e rest ih =>
    intro p
    cases e with
    | starttag t a => simpa [List.filter, isTagEvent, feed] using ih (feedEvent p (.starttag t a))
    | other s => simpa [List.filter, isTagEvent, feed] using ih p

/-! ## URL reader claims -/

theorem read_urls_foldl_acc (rows : List (List String)) :
    ∀ acc : List String, rows.foldl readStep acc = acc ++ readUrlsSpec rows := by
  induction rows with
  | nil => intro acc; simp [readUrlsSpec]
  | cons row rest ih =>
    intro acc
    rw [List.foldl_cons]
    cases row with
    | nil =>
      rw [show readStep acc [] = acc from rfl, ih acc]
      simp [readUrlsSpec]
    | cons field tail =>
      by_cases hh : lowerStr (trimStr field) = "url"
      · rw [show readStep acc (field :: tail) = acc by simp [readStep, hh], ih acc]
        simp [readUrlsSpec, hh]
      · by_cases he : trimStr field = ""
        · rw [show readStep acc (field :: tail) = acc by simp [readStep, hh, he], ih acc]
          simp [readUrlsSpec, hh, he]
        · rw [show readStep acc (field :: tail) = acc ++ [trimStr field] by
            simp [readStep, hh, he], ih (acc ++ [trimStr field])]
          simp [readUrlsSpec, hh, he]

/-- C6: `read_urls` returns, in input order, the trimmed first field of
every non-empty row, excluding rows whose trimmed first field is empty and
excluding rows whose trimmed first field case-insensitively equals `"url"` —
the header skip applying to a row at any position (that is what
`readUrlsSpec` computes, position-independently). -/
theorem C6_read_urls_spec (rows : List (List String)) :
    read_urls rows = readUrlsSpec rows := by
  unfold read_urls
  simpa using read_urls_foldl_acc rows []

/-! ## Orchestration claims -/

theorem process_results_map (net : Network) (rows : List (List String)) (timeout : Nat)
    (ua : String) (h : read_urls rows ≠ []) :
    (process_urls net rows timeout ua).results =
      (read_urls rows).map fun url =>
        { url := url,
          description :=
            match fetch_html net url timeout ua with
            | some html => extract_meta_description html
            | none => "" } := by
  unfold process_urls
  simp [h]

theorem process_results_url_map (net : Network) (rows : List (List String)) (timeout : Nat)
    (ua : String) (h : read_urls rows ≠ []) :
    (process_urls net rows timeout ua).results.map MetaDescriptionResult.url =
      read_urls rows := by
  rw [process_results_map net rows timeout ua h, List.map_map]
  exact List.map_id _

/-- C1: for every non-empty URL list read from the input, `process_urls`
raises no error and produces exactly one result record per input URL, in
input order (the record URLs are the input URLs), and a record's
description is the empty string whenever the fetch for its URL failed —
no URL is omitted. -/
theorem C1_one_record_per_url (net : Network) (rows : List (List String))
    (timeout : Nat) (ua : String) (h : read_urls rows ≠ []) :
    (process_urls net rows timeout ua).errorMsg = none ∧
    (process_urls net rows timeout ua).results.map MetaDescriptionResult.url = read_urls rows ∧
    ∀ r ∈ (process_urls net rows timeout ua).results,
      fetch_html net r.url timeout ua = none → r.description = "" := by
  refine ⟨by simp [process_urls, h], process_results_url_map net rows timeout ua h, ?_⟩
  intro r hr hfetch
  rw [process_results_map net rows timeout ua h] at hr
  simp only [List.mem_map] at hr
  obtain ⟨url, _, rfl⟩ := hr
  simp only at hfetch ⊢
  rw [hfetch]

/-- Witness for C1: a header row plus one URL row, with a network on which
every request fails; the single result record carries the URL and an empty
description. -/
theorem C1_one_record_per_url_witness :
    (process_urls (fun _ _ _ => FetchOutcome.urlError) [["url"], [" http://a.example "]] 10
        "UA").errorMsg = none ∧
    (process_urls (fun _ _ _ => FetchOutcome.urlError) [["url"], [" http://a.example "]] 10
        "UA").results.map MetaDescriptionResult.url = read_urls [["url"], [" http://a.example "]] ∧
    ∀ r ∈ (process_urls (fun _ _ _ => FetchOutcome.urlError) [["url"], [" http://a.example "]] 10
        "UA").results,
      fetch_html (fun _ _ _ => FetchOutcome.urlError) r.url 10 "UA" = none →
        r.description = "" :=
  C1_one_record_per_url (fun _ _ _ => FetchOutcome.urlError) [["url"], [" http://a.example "]]
    10 "UA" (by decide)

/-- C4: `fetch_html` never raises: on every `urlopen` outcome other than
success (the handled `HTTPError`, `URLError` and `ValueError` kinds — network
failure, malformed URL, timeout) it returns no content, the result record of
a URL whose fetch failed carries an empty description, and the batch is not
aborted: there is still one result per URL read. -/
theorem C4_fetch_failure_contained (net : Network) (url : String) (timeout : Nat)
    (ua : String) (rows : List (List String))
    (h : ∀ html, net url timeout ua ≠ FetchOutcome.success html) :
    fetch_html net url timeout ua = none ∧
    (∀ r ∈ (process_urls net rows timeout ua).results, r.url = url → r.description = "") ∧
    (process_urls net rows timeout ua).results.map MetaDescriptionResult.url = read_urls rows := by
  have hnone : fetch_html net url timeout ua = none := by
    unfold fetch_html
    cases hc : net url timeout ua with
    | success html => exact absurd hc (h html)
    | httpError => rfl
    | urlError => rfl
    | valueError => rfl
  refine ⟨hnone, ?_, ?_⟩
  · intro r hr hurl
    by_cases hempty : read_urls rows = []
    · rw [show process_urls net rows timeout ua =
          ⟨[], [], none, some "The input CSV contains no URLs."⟩ by
        unfold process_urls; simp [hempty]] at hr
      simp at hr
    · rw [process_results_map net rows timeout ua hempty] at hr
      simp only [List.mem_map] at hr
      obtain ⟨u, _, rfl⟩ := hr
      simp only at hurl ⊢
      subst hurl
      rw [hnone]
  · by_cases hempty : read_urls rows = []
    · rw [show process_urls net rows timeout ua =
          ⟨[], [], none, some "The input CSV contains no URLs."⟩ by
        unfold process_urls; simp [hempty]]
      simp [hempty]
    · exact process_results_url_map net rows timeout ua hempty

/-- Witness for C4: a network that answers every request with `HTTPError`;
the failing URL's record has an empty description and the other URL is still
processed. -/
theorem C4_fetch_failure_contained_witness :
    fetch_html (fun _ _ _ => FetchOutcome.httpError) "http://bad.example" 10 "UA" = none ∧
    (∀ r ∈ (process_urls (fun _ _ _ => FetchOutcome.httpError)
        [["http://bad.example"], ["http://other.example"]] 10 "UA").results,
      r.url = "http://bad.example" → r.description = "") ∧
    (process_urls (fun _ _ _ => FetchOutcome.httpError)
        [["http://bad.example"], ["http://other.example"]] 10 "UA").results.map
      MetaDescriptionResult.url = read_urls [["http://bad.example"], ["http://other.example"]] :=
  C4_fetch_failure_contained (fun _ _ _ => FetchOutcome.httpError) "http://bad.example" 10 "UA"
    [["http://bad.example"], ["http://other.example"]] (by intro html; simp)

/-- C5: when the URL reader yields no URLs, `process_urls` raises the
"no URLs" error before fetching or writing anything, and the program exits
with a non-zero status carrying that message, no output file and no fetch
performed. -/
theorem C5_no_urls_error (net : Network) (rows : List (List String)) (timeout : Nat)
    (ua : String) (inputPath : String) (h : read_urls rows = []) :
    process_urls net rows timeout ua =
      ⟨[], [], none, some "The input CSV contains no URLs."⟩ ∧
    (main true inputPath rows net timeout ua).exitCode ≠ 0 ∧
    (main true inputPath rows net timeout ua).message =
      some "The input CSV contains no URLs." ∧
    (main true inputPath rows net timeout ua).output = none ∧
    (main true inputPath rows net timeout ua).fetched = [] := by
  have hp : process_urls net rows timeout ua =
      ⟨[], [], none, some "The input CSV contains no URLs."⟩ := by
    unfold process_urls
    simp [h]
  refine ⟨hp, ?_⟩
  unfold main
  simp [hp]

/-! ## CSV round-trip -/

theorem isFieldEnd_of_not_special (c : Char) (h : isCsvSpecial c = false) :
    isFieldEnd c = false := by
  simp only [isCsvSpecial, Bool.or_eq_false_iff, decide_eq_false_iff_not] at h
  simp only [isFieldEnd, Bool.or_eq_false_iff, decide_eq_false_iff_not]
  tauto

theorem parseUnquoted_spec (l : List Char) :
    ∀ (acc rest : List Char), (∀ c ∈ l, isFieldEnd c = false) →
      (rest = [] ∨ ∃ c cs, rest = c :: cs ∧ isFieldEnd c = true) →
      parseUnquoted acc (l ++ rest) = (acc.reverse ++ l, rest) := by
  induction l with
  | nil =>
    intro acc rest _ hrest
    rcases hrest with rfl | ⟨c, cs, rfl, hc⟩
    · simp [parseUnquoted]
    · simp [parseUnquoted, hc]
  | cons c l ih =>
    intro acc rest hl hrest
    have hc : isFieldEnd c = false := hl c (List.mem_cons_self _ _)
    rw [List.cons_append]
    show parseUnquoted acc (c :: (l ++ rest)) = _
    rw [show parseUnquoted acc (c :: (l ++ rest)) = parseUnquoted (c :: acc) (l ++ rest) by
      simp [parseUnquoted, hc]]
    rw [ih (c :: acc) rest (fun x hx => hl x (List.mem_cons_of_mem _ hx)) hrest]
    simp

theorem parseQuoted_spec (l : List Char) :
    ∀ (acc rest : List Char), (∀ c cs, rest = c :: cs → c ≠ '"') →
      parseQuoted acc (escapeQuotes l ++ '"' :: rest) = (acc.reverse ++ l, rest) := by
  induction l with
  | nil =>
    intro acc rest h
    show parseQuoted acc ('"' :: rest) = _
    cases rest with
    | nil => simp [parseQuoted]
    | cons c2 cs =>
      have hne : c2 ≠ '"' := h c2 cs rfl
      simp [parseQuoted, hne]
  | cons c l ih =>
    intro acc rest h
    by_cases hc : c = '"'
    · subst hc
      rw [show escapeQuotes ('"' :: l) = '"' :: '"' :: escapeQuotes l by simp [escapeQuotes]]
      rw [List.cons_append, List.cons_append]
      rw [show parseQuoted acc ('"' :: '"' :: (escapeQuotes l ++ '"' :: rest)) =
          parseQuoted ('"' :: acc) (escapeQuotes l ++ '"' :: rest) by simp [parseQuoted]]
      rw [ih ('"' :: acc) rest h]
      simp
    · rw [show escapeQuotes (c :: l) = c :: escapeQuotes l by simp [escapeQuotes, hc]]
      rw [List.cons_append]
      rw [show parseQuoted acc (c :: (escapeQuotes l ++ '"' :: rest)) =
          parseQuoted (c :: acc) (escapeQuotes l ++ '"' :: rest) by
        conv_lhs => rw [parseQuoted.eq_def]
        simp [hc]]
      rw [ih (c :: acc) rest h]
      simp

theorem parseField_encodeField (f : String) (c : Char) (cs : List Char)
    (hc : c = ',' ∨ c = '\r') :
    parseField (encodeField f ++ c :: cs) = (f.data, c :: cs) := by
  have hcq : c ≠ '"' := by rcases hc with rfl | rfl <;> decide
  have hcend : isFieldEnd c = true := by
    rcases hc with rfl | rfl <;> decide
  cases hq : f.data.any isCsvSpecial with
  | true =>
    rw [show encodeField f = '"' :: (escapeQuotes f.data ++ ['"']) by
      simp [encodeField, hq]]
    rw [List.cons_append, List.append_assoc]
    rw [show ((['"'] : List Char) ++ c :: cs) = '"' :: c :: cs from rfl]
    rw [show parseField ('"' :: (escapeQuotes f.data ++ '"' :: c :: cs)) =
        parseQuoted [] (escapeQuotes f.data ++ '"' :: c :: cs) from rfl]
    rw [parseQuoted_spec f.data [] (c :: cs)
      (by intro c' cs' heq hq'; injection heq with h1 _; exact hcq (h1 ▸ hq'))]
    simp
  | false =>
    rw [show encodeField f = f.data by simp [encodeField, hq]]
    have hall : ∀ x ∈ f.data, isFieldEnd x = false := by
      intro x hx
      refine isFieldEnd_of_not_special x ?_
      rw [List.any_eq_false] at hq
      simpa using hq x hx
    cases hd : f.data with
    | nil =>
      rw [List.nil_append]
      rw [show parseField (c :: cs) = parseUnquoted [] (c :: cs) by
        unfold parseField; simp [hcq]]
      rw [show (c :: cs : List Char) = [] ++ c :: cs from rfl]
      rw [parseUnquoted_spec [] [] (c :: cs) (by simp) (Or.inr ⟨c, cs, rfl, hcend⟩)]
      simp
    | cons d ds =>
      have hdq : d ≠ '"' := by
        intro hcontra
        rw [List.any_eq_false] at hq
        have := hq d (by rw [hd]; exact List.mem_cons_self _ _)
        simp [isCsvSpecial, hcontra] at this
      rw [List.cons_append]
      rw [show parseField (d :: (ds ++ c :: cs)) = parseUnquoted [] (d :: (ds ++ c :: cs)) by
        unfold parseField; simp [hdq]]
      rw [show (d :: (ds ++ c :: cs) : List Char) = (d :: ds) ++ c :: cs from rfl]
      rw [parseUnquoted_spec (d :: ds) [] (c :: cs) (hd ▸ hall)
        (Or.inr ⟨c, cs, rfl, hcend⟩)]
      simp

theorem strMk_data (s : String) : String.mk s.data = s := by
  cases s
  rfl

theorem parseFields_comma (fuel : Nat) (fld rest input : List Char)
    (hp : parseField input = (fld, ',' :: rest)) :
    parseFields (fuel + 1) input =
      (String.mk fld :: (parseFields fuel rest).1, (parseFields fuel rest).2) := by
  conv_lhs => rw [parseFields.eq_def]
  simp [hp]

theorem parseFields_crlf (fuel : Nat) (fld rest input : List Char)
    (hp : parseField input = (fld, '\r' :: '\n' :: rest)) :
    parseFields (fuel + 1) input = ([String.mk fld], rest) := by
  conv_lhs => rw [parseFields.eq_def]
  simp [hp]

theorem parseFields_encodeRow (row : List String) :
    ∀ (fuel : Nat) (rest : List Char), row ≠ [] → row.length ≤ fuel →
      parseFields fuel (encodeRow row ++ '\r' :: '\n' :: rest) = (row, rest) := by
  induction row with
  | nil => intro fuel rest h _; exact absurd rfl h
  | cons f row' ih =>
    intro fuel rest _ hlen
    obtain ⟨k, rfl⟩ : ∃ k, fuel = k + 1 :=
      ⟨fuel - 1, by simp at hlen; omega⟩
    cases row' with
    | nil =>
      rw [show encodeRow [f] = encodeField f from rfl]
      rw [parseFields_crlf k f.data rest _
        (parseField_encodeField f '\r' ('\n' :: rest) (Or.inr rfl))]
    | cons f2 fs =>
      rw [show encodeRow (f :: f2 :: fs) = encodeField f ++ ',' :: encodeRow (f2 :: fs)
        from rfl]
      rw [List.append_assoc, List.cons_append]
      rw [parseFields_comma k f.data (encodeRow (f2 :: fs) ++ '\r' :: '\n' :: rest) _
        (parseField_encodeField f ','
          (encodeRow (f2 :: fs) ++ '\r' :: '\n' :: rest) (Or.inl rfl))]
      rw [ih k rest (by simp) (by simp at hlen ⊢; omega)]

theorem encodeField_head (f : String) (d : Char) (ds : List Char)
    (h : encodeField f = d :: ds) : d = '"' ∨ isCsvSpecial d = false := by
  cases hq : f.data.any isCsvSpecial with
  | true =>
    left
    rw [show encodeField f = '"' :: (escapeQuotes f.data ++ ['"']) by
      simp [encodeField, hq]] at h
    exact (List.cons.injEq _ _ _ _ ▸ h).1.symm
  | false =>
    right
    rw [show encodeField f = f.data by simp [encodeField, hq]] at h
    rw [List.any_eq_false] at hq
    simpa using hq d (by rw [h]; exact List.mem_cons_self _ _)

theorem parseRecord_eq_fields (fuel : Nat) (f1 f2 : String) (fs : List String)
    (rest : List Char) :
    parseRecord fuel (encodeRow (f1 :: f2 :: fs) ++ rest) =
      parseFields fuel (encodeRow (f1 :: f2 :: fs) ++ rest) := by
  rw [show encodeRow (f1 :: f2 :: fs) = encodeField f1 ++ ',' :: encodeRow (f2 :: fs)
    from rfl]
  cases he : encodeField f1 with
  | nil =>
    simp only [List.nil_append, List.cons_append]
    unfold parseRecord
    simp
  | cons d ds =>
    have hd1 : d ≠ '\r' := by
      rcases encodeField_head f1 d ds he with rfl | hd
      · decide
      · simp [isCsvSpecial] at hd
        tauto
    have hd2 : d ≠ '\n' := by
      rcases encodeField_head f1 d ds he with rfl | hd
      · decide
      · simp [isCsvSpecial] at hd
        tauto
    simp only [List.cons_append, List.append_assoc]
    unfold parseRecord
    simp [hd1, hd2]

theorem parseRecord_encodeRow (f1 f2 : String) (fs : List String) (fuel : Nat)
    (rest : List Char) (hfuel : fs.length + 2 ≤ fuel) :
    parseRecord fuel (encodeRow (f1 :: f2 :: fs) ++ '\r' :: '\n' :: rest) =
      (f1 :: f2 :: fs, rest) := by
  rw [parseRecord_eq_fields]
  exact parseFields_encodeRow (f1 :: f2 :: fs) fuel rest (by simp) (by simpa using hfuel)

theorem encodeRow_length (row : List String) : row.length ≤ (encodeRow row).length + 1 := by
  induction row with
  | nil => simp [encodeRow]
  | cons f row' ih =>
    cases row' with
    | nil => simp [encodeRow]
    | cons f2 fs =>
      rw [show encodeRow (f :: f2 :: fs) = encodeField f ++ ',' :: encodeRow (f2 :: fs)
        from rfl]
      simp only [List.length_append, List.length_cons] at ih ⊢
      omega

theorem parseRecordsAux_cons (fuel : Nat) (input : List Char) (h : input ≠ []) :
    parseRecordsAux (fuel + 1) input =
      (parseRecord (input.length + 1) input).1 ::
        parseRecordsAux fuel (parseRecord (input.length + 1) input).2 := by
  cases input with
  | nil => exact absurd rfl h
  | cons c rest =>
    conv_lhs => rw [parseRecordsAux.eq_def]
    simp [List.length_cons]

theorem foldr_writerow_length (rows : List (List String)) :
    rows.length ≤ (rows.foldr (fun r acc => writerow r ++ acc) []).length := by
  induction rows with
  | nil => simp
  | cons r rows' ih =>
    rw [List.foldr_cons, List.length_append]
    have h2 : 2 ≤ (writerow r).length := by simp [writerow]
    simp only [List.length_cons]
    omega

theorem parseRecordsAux_write (rows : List (List String)) :
    ∀ fuel : Nat, (∀ r ∈ rows, 2 ≤ r.length) → rows.length ≤ fuel →
      parseRecordsAux fuel (rows.foldr (fun r acc => writerow r ++ acc) []) = rows := by
  induction rows with
  | nil =>
    intro fuel _ _
    cases fuel <;> simp [parseRecordsAux]
  | cons r rows' ih =>
    intro fuel hall hfuel
    obtain ⟨k, rfl⟩ : ∃ k, fuel = k + 1 := ⟨fuel - 1, by simp at hfuel; omega⟩
    obtain ⟨f1, f2, fs, rfl⟩ : ∃ f1 f2 fs, r = f1 :: f2 :: fs := by
      have h2 := hall r (List.mem_cons_self _ _)
      cases r with
      | nil => simp at h2
      | cons f1 r' =>
        cases r' with
        | nil => simp at h2
        | cons f2 fs => exact ⟨f1, f2, fs, rfl⟩
    rw [List.foldr_cons]
    rw [show writerow (f1 :: f2 :: fs) ++ rows'.foldr (fun r acc => writerow r ++ acc) [] =
        encodeRow (f1 :: f2 :: fs) ++
          '\r' :: '\n' :: rows'.foldr (fun r acc => writerow r ++ acc) [] by
      simp [writerow]]
    rw [parseRecordsAux_cons k _ (by simp)]
    have hlen : fs.length + 2 ≤
        (encodeRow (f1 :: f2 :: fs) ++
          '\r' :: '\n' :: rows'.foldr (fun r acc => writerow r ++ acc) []).length + 1 := by
      have h1 := encodeRow_length (f1 :: f2 :: fs)
      simp only [List.length_cons, List.length_append] at h1 ⊢
      omega
    rw [parseRecord_encodeRow f1 f2 fs _ _ hlen]
    rw [ih k (fun x hx => hall x (List.mem_cons_of_mem _ hx)) (by simp at hfuel; omega)]

theorem csvParse_csvWrite (rows : List (List String))
    (hall : ∀ r ∈ rows, 2 ≤ r.length) :
    csvParse (csvWrite rows) = rows := by
  unfold csvParse csvWrite
  rw [show (String.mk (rows.foldr (fun r acc => writerow r ++ acc) [])).data =
      rows.foldr (fun r acc => writerow r ++ acc) [] from rfl]
  refine parseRecordsAux_write rows _ hall ?_
  have := foldr_writerow_length rows
  omega

theorem write_results_data (results : List MetaDescriptionResult) :
    write_results results =
      csvWrite (["URL", "Meta Description"] ::
        results.map fun r => [r.url, r.description]) := by
  unfold write_results csvWrite
  congr 1
  rw [List.foldr_cons]
  suffices h : ∀ (l : List MetaDescriptionResult) (acc : List Char),
      l.foldl (fun acc r => acc ++ writerow [r.url, r.description]) acc =
        acc ++ (l.map fun r => [r.url, r.description]).foldr
          (fun r acc => writerow r ++ acc) [] by
    exact h results (writerow ["URL", "Meta Description"])
  intro l
  induction l with
  | nil => intro acc; simp
  | cons r l ih =>
    intro acc
    rw [List.foldl_cons, ih, List.map_cons, List.foldr_cons, List.append_assoc]

/-- C8: `write_results` emits exactly the CSV serialization (standard
minimal quoting, nothing else) of the header row `["URL", "Meta
Description"]` followed by one row per result record in input order, each
row being the URL and the description. -/
theorem C8_write_results_layout (results : List MetaDescriptionResult) :
    write_results results =
      csvWrite (["URL", "Meta Description"] ::
        results.map fun r => [r.url, r.description]) :=
  write_results_data results

/-- C7: writing the output CSV with `write_results` and re-reading it with
the (standard, default-dialect) CSV reader reproduces the exact
(URL, description) pairs in the original order, after the header row. -/
theorem C7_output_roundtrip (results : List MetaDescriptionResult) :
    List.drop 1 (csvParse (write_results results)) =
      results.map fun r => [r.url, r.description] := by
  rw [write_results_data, csvParse_csvWrite]
  · simp
  · intro r hr
    rcases List.mem_cons.mp hr with rfl | hm
    · simp
    · obtain ⟨x, _, rfl⟩ := List.mem_map.mp hm
      simp

/-- Witness for C5, the spec's own example: an input CSV consisting solely
of a header row `"url"`. -/
theorem C5_no_urls_error_witness :
    process_urls (fun _ _ _ => FetchOutcome.success []) [["url"]] 10 "UA" =
      ⟨[], [], none, some "The input CSV contains no URLs."⟩ ∧
    (main true "urls.csv" [["url"]] (fun _ _ _ => FetchOutcome.success []) 10 "UA").exitCode ≠ 0 ∧
    (main true "urls.csv" [["url"]] (fun _ _ _ => FetchOutcome.success []) 10 "UA").message =
      some "The input CSV contains no URLs." ∧
    (main true "urls.csv" [["url"]] (fun _ _ _ => FetchOutcome.success []) 10 "UA").output = none ∧
    (main true "urls.csv" [["url"]] (fun _ _ _ => FetchOutcome.success []) 10 "UA").fetched = [] :=
  C5_no_urls_error (fun _ _ _ => FetchOutcome.success []) [["url"]] 10 "UA" "urls.csv" (by decide)

end MetaDesc
